import Mathlib

/-!
Verification of the OllamaUI assistant-content classifier, streaming
reconciler, conversation store and model-string utilities.

Strings are modelled as lists of characters (`Str`), and the JavaScript
string primitives used by the source (split, trim, startsWith, endsWith,
indexOf, includes, join, slice) are given direct recursive definitions
with JavaScript semantics.  `JSON.parse` success or failure is modelled
by the boolean validator `jsonValid`, a recursive-descent recogniser of
the JSON grammar (json.org): structural validation only, which is all
the source uses it for.

The classifier `parseAssistantContent` in the source is a while loop
over lines whose index is not advanced on certain inputs; it is
therefore embedded with an explicit fuel parameter (`parseLoop`), where
`none` arises only from fuel exhaustion.  One pass of the loop either
consumes at least one line or leaves the state unchanged, so fuel
`lines.length + 1` is enough for every input on which the source
terminates; `parseAssistantContent` below runs with that fuel.
-/

namespace OllamaUI

abbrev Str := List Char

/-- Whitespace characters relevant to the inputs considered here (the
JavaScript trim / regex-space classes also contain form feed, vertical
tab and unicode spaces, none of which occur in the keys and payloads at
issue). -/
def isWsChar (c : Char) : Bool :=
  c == ' ' || c == '\t' || c == '\n' || c == '\r'

/-- JavaScript String.prototype.trim. -/
def trimS (s : Str) : Str :=
  ((s.dropWhile isWsChar).reverse.dropWhile isWsChar).reverse

/-- JavaScript String.prototype.startsWith: the first argument is the
pattern searched for at the beginning of the second. -/
def strStarts : Str → Str → Bool
  | [], _ => true
  | _ :: _, [] => false
  | a :: ps, b :: ss => a == b && strStarts ps ss

/-- JavaScript String.prototype.endsWith. -/
def strEnds (p s : Str) : Bool :=
  strStarts p.reverse s.reverse

/-- JavaScript String.prototype.includes for a single character. -/
def containsChar (c : Char) : Str → Bool
  | [] => false
  | a :: r => a == c || containsChar c r

/-- JavaScript String.prototype.indexOf: index of the first occurrence
of the pattern, `none` for JavaScript -1. -/
def subIndex (pat : Str) : Str → Option Nat
  | [] => if strStarts pat [] then some 0 else none
  | s@(_ :: r) => if strStarts pat s then some 0 else (subIndex pat r).map (· + 1)

/-- JavaScript String.prototype.includes for a substring. -/
def containsSub (pat s : Str) : Bool :=
  (subIndex pat s).isSome

/-- JavaScript String.prototype.split on a one-character separator
(no limit): splitting the empty string gives one empty part. -/
def splitOnChar (sep : Char) : Str → List Str
  | [] => [[]]
  | c :: r =>
    if c == sep then [] :: splitOnChar sep r
    else
      match splitOnChar sep r with
      | [] => [[c]]
      | h :: t => (c :: h) :: t

/-- JavaScript String.prototype.split on the two-character separator
used by the math probe (source: line.split with a double dollar). -/
def splitDD : Str → List Str
  | '$' :: '$' :: rest => [] :: splitDD rest
  | c :: rest =>
    match splitDD rest with
    | [] => [[c]]
    | h :: t => (c :: h) :: t
  | [] => [[]]

/-- JavaScript Array.prototype.join with a separator string. -/
def joinWith (sep : Str) : List Str → Str
  | [] => []
  | [x] => x
  | x :: xs => x ++ sep ++ joinWith sep xs

/-- Join with a newline, as the source does when reassembling the lines
of a recognised region. -/
def joinNL (xs : List Str) : Str :=
  joinWith (['\n']) xs

/-- Join with the empty separator (JavaScript join of an empty string). -/
def concatAll (xs : List Str) : Str :=
  joinWith [] xs

def toLowerS (s : Str) : Str := s.map Char.toLower
def toUpperS (s : Str) : Str := s.map Char.toUpper

/-- JavaScript charAt-0-toUpperCase plus slice-1, as in the code-block
title helper. -/
def capitalizeS : Str → Str
  | [] => []
  | c :: r => Char.toUpper c :: r

def isAsciiAlpha (c : Char) : Bool :=
  ('a' ≤ c && c ≤ 'z') || ('A' ≤ c && c ≤ 'Z')

def isDigitChar (c : Char) : Bool :=
  '0' ≤ c && c ≤ '9'

def isHexChar (c : Char) : Bool :=
  isDigitChar c || ('a' ≤ c && c ≤ 'f') || ('A' ≤ c && c ≤ 'F')

/-! ### A JSON recogniser modelling JSON.parse success and failure

`jVal fuel s` consumes one JSON value from the front of `s` (after
leading whitespace) and returns the remaining characters, or `none` if
no valid value starts there.  Fuel decreases on every auxiliary call;
`jsonValid` supplies fuel proportional to the length, which is ample
since every auxiliary call either consumes input or is one of a short
fixed chain. -/

def skipWs (s : Str) : Str := s.dropWhile isWsChar

/-- Body of a JSON string after the opening quote, with JSON escape
rules; returns the remainder after the closing quote. -/
def jStringRest : Str → Option Str
  | [] => none
  | '"' :: r => some r
  | '\\' :: e :: r =>
    if e == 'u' then
      match r with
      | h1 :: h2 :: h3 :: h4 :: r2 =>
        if isHexChar h1 && isHexChar h2 && isHexChar h3 && isHexChar h4 then
          jStringRest r2
        else none
      | _ => none
    else if e == '"' || e == '\\' || e == '/' || e == 'b' || e == 'f' ||
            e == 'n' || e == 'r' || e == 't' then
      jStringRest r
    else none
  | c :: r => if c.val < 32 then none else jStringRest r

/-- JSON number grammar: optional minus, integer part (0 or nonzero-led
digits), optional fraction, optional exponent. -/
def jNumber (s : Str) : Option Str :=
  let t := match s with
    | '-' :: r => r
    | _ => s
  let intRest : Option Str :=
    match t with
    | '0' :: r => some r
    | d :: r => if isDigitChar d && d != '0' then some (r.dropWhile isDigitChar) else none
    | [] => none
  match intRest with
  | none => none
  | some u =>
    let fracRest : Option Str :=
      match u with
      | '.' :: r =>
        match r with
        | d :: r2 => if isDigitChar d then some (r2.dropWhile isDigitChar) else none
        | [] => none
      | _ => some u
    match fracRest with
    | none => none
    | some v =>
      match v with
      | e :: r =>
        if e == 'e' || e == 'E' then
          let r2 := match r with
            | '+' :: r3 => r3
            | '-' :: r3 => r3
            | _ => r
          match r2 with
          | d :: r4 => if isDigitChar d then some (r4.dropWhile isDigitChar) else none
          | [] => none
        else some v
      | [] => some v

mutual

def jVal : Nat → Str → Option Str
  | 0, _ => none
  | f + 1, s0 =>
    let s := skipWs s0
    match s with
    | '{' :: r => jObjStart f r
    | '[' :: r => jArrStart f r
    | '"' :: r => jStringRest r
    | 't' :: 'r' :: 'u' :: 'e' :: r => some r
    | 'f' :: 'a' :: 'l' :: 's' :: 'e' :: r => some r
    | 'n' :: 'u' :: 'l' :: 'l' :: r => some r
    | _ => jNumber s

def jObjStart : Nat → Str → Option Str
  | 0, _ => none
  | f + 1, s0 =>
    let s := skipWs s0
    match s with
    | '}' :: r => some r
    | _ => jMembers f s

def jMembers : Nat → Str → Option Str
  | 0, _ => none
  | f + 1, s0 =>
    match skipWs s0 with
    | '"' :: r =>
      match jStringRest r with
      | none => none
      | some r2 =>
        match skipWs r2 with
        | ':' :: r3 =>
          match jVal f r3 with
          | none => none
          | some r4 =>
            match skipWs r4 with
            | ',' :: r5 => jMembers f r5
            | '}' :: r6 => some r6
            | _ => none
        | _ => none
    | _ => none

def jArrStart : Nat → Str → Option Str
  | 0, _ => none
  | f + 1, s0 =>
    let s := skipWs s0
    match s with
    | ']' :: r => some r
    | _ => jElems f s

def jElems : Nat → Str → Option Str
  | 0, _ => none
  | f + 1, s0 =>
    match jVal f s0 with
    | none => none
    | some r =>
      match skipWs r with
      | ',' :: r2 => jElems f r2
      | ']' :: r3 => some r3
      | _ => none

end

/-- Models a successful JSON.parse of the whole string. -/
def jsonValid (s : Str) : Bool :=
  match jVal (4 * s.length + 16) s with
  | some r => (skipWs r).isEmpty
  | none => false

/-! ### The content classifier (source: parseAssistantContent and helpers) -/

inductive OutputType
  | text | code | command | json | xml | table | math
deriving DecidableEq, Repr

structure OutputBlock where
  type : OutputType
  content : Str
  language : Option Str := none
  title : Option Str := none
deriving DecidableEq, Repr

structure ParsedAssistantContent where
  blocks : List OutputBlock
  rawContent : Str
deriving DecidableEq, Repr

/-- Shell-family language names treated as commands by the source
(note the list in the code also holds the name shell). -/
def shellLangs : List Str :=
  [("bash".toList), ("sh".toList), ("shell".toList), ("zsh".toList),
   ("fish".toList), ("cmd".toList), ("powershell".toList)]

def determineCodeBlockType (language : Str) : OutputType :=
  if shellLangs.contains (toLowerS language) then .command else .code

def getCodeBlockTitle (language : Str) (t : OutputType) : Str :=
  if t = OutputType.command then toUpperS language ++ (" Command".toList)
  else capitalizeS language ++ (" Code".toList)

/-- Source isLikelyJSON: joins the next up-to-ten lines with an empty
separator and asks whether JSON.parse succeeds.  Here the line list is
the suffix starting at the current index. -/
def isLikelyJSON (ls : List Str) : Bool :=
  jsonValid (concatAll (ls.take 10))

/-- One character of the JSON balance scan of extractJSON: state is
(brace depth, bracket depth, inside-string, escaped).  Depths are
integers, as in JavaScript they may go negative. -/
def scanJsonChar : (Int × Int × Bool × Bool) → Char → (Int × Int × Bool × Bool)
  | (b, k, ins, esc), c =>
    if esc then (b, k, ins, false)
    else if c == '\\' then (b, k, ins, true)
    else if c == '"' then (b, k, !ins, false)
    else if !ins then
      ((if c == '{' then b + 1 else if c == '}' then b - 1 else b),
       (if c == '[' then k + 1 else if c == ']' then k - 1 else k), ins, false)
    else (b, k, ins, false)

/-- Source extractJSON: scans forward line by line (state carried across
line breaks, which are not themselves scanned, since the input was split
on newlines); after each line, if both depths are zero and the
accumulated text parses as JSON, the region is complete.  Returns the
accumulated content and the number of lines consumed. -/
def extractJSONGo : Int → Int → Bool → Bool → List Str → List Str → Option (Str × Nat)
  | _, _, _, _, _, [] => none
  | b, k, ins, esc, acc, l :: rest =>
    match l.foldl scanJsonChar (b, k, ins, esc) with
    | (b2, k2, ins2, esc2) =>
      let acc2 := acc ++ [l]
      if b2 == 0 && k2 == 0 && !acc2.isEmpty && jsonValid (joinNL acc2) then
        some (joinNL acc2, acc2.length)
      else extractJSONGo b2 k2 ins2 esc2 acc2 rest

def extractJSON (ls : List Str) : Option (Str × Nat) :=
  extractJSONGo 0 0 false false [] ls

/-- Source isLikelyXML: the line has a match of an open-tag shape, a
less-than sign followed by an ascii letter with a closing greater-than
sign further on. -/
def hasXmlTag : Str → Bool
  | '<' :: c :: rest => (isAsciiAlpha c && containsChar '>' rest) || hasXmlTag (c :: rest)
  | _ :: rest => hasXmlTag rest
  | [] => false

/-- All matches, in order, of the open-tag pattern of extractXML on one
line: a less-than sign, an ascii letter, then everything up to the first
greater-than sign.  Returns (tag name, full tag text) pairs; the name
stops at the first whitespace, the full text runs to the greater-than
sign.  Scanning resumes after each match, one character forward on a
failed candidate, and stops when no greater-than sign remains. -/
def openTagsGo : Nat → Str → List (Str × Str)
  | 0, _ => []
  | _ + 1, [] => []
  | f + 1, '<' :: rest =>
    (match rest with
     | c :: r2 =>
       if isAsciiAlpha c then
         let inner := (c :: r2).takeWhile (fun x => x != '>')
         match (c :: r2).drop inner.length with
         | '>' :: r3 =>
           let tagName := c :: r2.takeWhile (fun x => !(x == '>' || isWsChar x))
           (tagName, '<' :: (inner ++ ['>'])) :: openTagsGo f r3
         | _ => []
       else openTagsGo f rest
     | [] => [])
  | f + 1, _ :: rest => openTagsGo f rest

def openTagMatches (l : Str) : List (Str × Str) :=
  openTagsGo (l.length + 1) l

/-- All matches, in order, of the close-tag pattern of extractXML on one
line; the recovered name is everything between the slash and the
greater-than sign (the second regex of the source keeps trailing
whitespace in the captured name). -/
def closeTagsGo : Nat → Str → List Str
  | 0, _ => []
  | _ + 1, [] => []
  | f + 1, '<' :: '/' :: c :: r2 =>
    if isAsciiAlpha c then
      let inner := (c :: r2).takeWhile (fun x => x != '>')
      match (c :: r2).drop inner.length with
      | '>' :: r3 => inner :: closeTagsGo f r3
      | _ => []
    else closeTagsGo f ('/' :: c :: r2)
  | f + 1, _ :: rest => closeTagsGo f rest

def closeTagMatches (l : Str) : List Str :=
  closeTagsGo (l.length + 1) l

/-- Source extractXML: a stack of open tag names (top of the JavaScript
array is the head here); per line all open tags are pushed first, then
each close tag pops only when it equals the top.  The region completes
at the first line after which the stack is empty. -/
def extractXMLGo : List Str → List Str → List Str → Option (Str × Nat)
  | _, _, [] => none
  | stack, acc, l :: rest =>
    let acc2 := acc ++ [l]
    let st1 := (openTagMatches l).foldl
      (fun st t => if strEnds ("/>".toList) t.2 then st else t.1 :: st) stack
    let st2 := (closeTagMatches l).foldl
      (fun st name =>
        match st with
        | top :: below => if top == name then below else st
        | [] => st) st1
    if st2.isEmpty then some (joinNL acc2, acc2.length)
    else extractXMLGo st2 acc2 rest

def extractXML (ls : List Str) : Option (Str × Nat) :=
  extractXMLGo [] [] ls

/-- Source isTableRow: splitting on the pipe and keeping the parts whose
trim is nonempty leaves at least two cells. -/
def isTableRow (line : Str) : Bool :=
  decide (2 ≤ ((splitOnChar '|' line).filter (fun p => !(trimS p).isEmpty)).length)

/-- Source extractTable: consumes the maximal run of qualifying rows
starting at the current line (the loop breaks at the first non-row) and
commits only when at least two rows were consumed. -/
def extractTable (ls : List Str) : Option (Str × Nat) :=
  let rows := ls.takeWhile (fun l => containsChar '|' (trimS l) && isTableRow (trimS l))
  if 2 ≤ rows.length then some (joinNL rows, rows.length) else none

/-- A line opening or closing a fenced code region: its trim starts
with a triple backtick. -/
def isFenceLine (l : Str) : Bool :=
  strStarts ("```".toList) (trimS l)

/-- Source isSpecialLine: the probe deciding whether the plain-text
accumulator stops before a line. -/
def isSpecialLine (l : Str) : Bool :=
  let t := trimS l
  strStarts ("```".toList) t ||
  strStarts ("$ ".toList) t ||
  strStarts ("# ".toList) t ||
  (strStarts (['{']) t || strStarts (['[']) t) ||
  strStarts (['<']) t ||
  containsChar '|' t ||
  (containsSub ("\\[".toList) t && containsSub ("\\]".toList) t) ||
  decide (2 < (splitDD t).length)

/-- The while loop of parseAssistantContent over the suffix of
still-unconsumed lines, with explicit fuel.  `none` arises only from
fuel running out; the branch structure, branch order and all
fall-throughs mirror the source (a failed extraction falls through to
the next probe, and a line on which every probe fails but which
isSpecialLine still rejects for text accumulation leaves the suffix
unchanged, exactly as the source loop body ends without advancing its
index there). -/
def parseLoop : Nat → List Str → List OutputBlock → Option (List OutputBlock)
  | 0, _, _ => none
  | fuel + 1, lines, blocks =>
    match lines with
    | [] => some blocks
    | _ :: rest =>
      let line := trimS (lines.headD [])
      if isFenceLine (lines.headD []) then
        let langTok := trimS (line.drop 3)
        let language := if langTok.isEmpty then ("text".toList) else langTok
        let codeLines := rest.takeWhile (fun l => !isFenceLine l)
        let blocks2 :=
          if codeLines.isEmpty then blocks
          else
            let t := determineCodeBlockType language
            blocks ++ [{ type := t, content := joinNL codeLines,
                         language := some language,
                         title := some (getCodeBlockTitle language t) }]
        parseLoop fuel (lines.drop (codeLines.length + 2)) blocks2
      else
        match (if (strStarts (['{']) line || strStarts (['[']) line) && isLikelyJSON lines
               then extractJSON lines else none) with
        | some (content, n) =>
          parseLoop fuel (lines.drop n)
            (blocks ++ [{ type := .json, content := content,
                          title := some ("JSON Response".toList) }])
        | none =>
          match (if strStarts (['<']) line && !strStarts ("<!--".toList) line && hasXmlTag line
                 then extractXML lines else none) with
          | some (content, n) =>
            parseLoop fuel (lines.drop n)
              (blocks ++ [{ type := .xml, content := content,
                            title := some ("XML Response".toList) }])
          | none =>
            if strStarts ("$ ".toList) line || strStarts ("# ".toList) line then
              parseLoop fuel (lines.drop 1)
                (blocks ++ [{ type := .command, content := line.drop 2,
                              title := some ("Command".toList) }])
            else if (containsSub ("\\[".toList) line && containsSub ("\\]".toList) line) ||
                    decide (2 < (splitDD line).length) then
              parseLoop fuel (lines.drop 1)
                (blocks ++ [{ type := .math, content := line,
                              title := some ("Mathematical Expression".toList) }])
            else
              match (if containsChar '|' line && isTableRow line
                     then extractTable lines else none) with
              | some (content, n) =>
                parseLoop fuel (lines.drop n)
                  (blocks ++ [{ type := .table, content := content,
                                title := some ("Table".toList) }])
              | none =>
                let textLines := lines.takeWhile (fun l => !isSpecialLine l)
                if textLines.isEmpty then
                  parseLoop fuel lines blocks
                else
                  let textContent := trimS (joinNL textLines)
                  let blocks2 :=
                    if textContent.isEmpty then blocks
                    else blocks ++ [{ type := .text, content := textContent }]
                  parseLoop fuel (lines.drop textLines.length) blocks2

/-- parseAssistantContent run with a given fuel; `none` means the fuel
ran out, which with fuel at least lines + 1 happens exactly when the
source loop never terminates. -/
def parseAssistantContentFuel (fuel : Nat) (content : Str) : Option ParsedAssistantContent :=
  let lines := splitOnChar '\n' content
  match parseLoop fuel lines [] with
  | none => none
  | some blocks =>
    some { blocks := if blocks.isEmpty then [{ type := .text, content := trimS content }] else blocks,
           rawContent := content }

/-- The classifier, with fuel sufficient for every terminating input:
each loop pass that makes progress consumes at least one line, so when
the source terminates it does so within lines + 1 passes. -/
def parseAssistantContent (content : Str) : Option ParsedAssistantContent :=
  parseAssistantContentFuel ((splitOnChar '\n' content).length + 1) content

/-! ### Model-string parsing and conversation-key handling
(source: the chat-history utility module) -/

structure ModelSelection where
  provider : Str
  model : Str
  manualModelString : Option Str
deriving DecidableEq, Repr

/-- Source parseModelString.  JavaScript split with limit 2 truncates
the result array to its first two entries. -/
def parseModelString (modelString : Str) : ModelSelection :=
  if containsChar '/' modelString then
    let parts := (splitOnChar '/' modelString).take 2
    { provider := parts.getD 0 [], model := parts.getD 1 [],
      manualModelString := some modelString }
  else
    { provider := ("ollama".toList), model := modelString,
      manualModelString := none }

/-- The fixed storage namespace of the chat history. -/
def historyKeyBase : Str := "ollama-webui-chat-history".toList

/-- Source getStorageKey. -/
def getStorageKey (modelString : Str) : Str :=
  historyKeyBase ++ ('-' :: modelString)

/-- Source generateConversationId, with the clock value and the random
suffix as explicit inputs. -/
def generateConversationId (nowMs : Nat) (rand : Str) : Str :=
  ("conv-".toList) ++ (Nat.repr nowMs).toList ++ ('-' :: rand)

/-- The key-to-(model, conversation) recovery of getAllConversations:
keys outside the namespace and current-pointer keys are skipped, the
namespace and one dash are dropped, and the remainder splits at the
first occurrence of dash-conv-dash, keeping the text after that first
dash as the conversation id; keys with no such occurrence yield none
(the source continues past them). -/
def extractKeyParts (key : Str) : Option (Str × Str) :=
  if strStarts historyKeyBase key && !strEnds ("-current".toList) key then
    let remainingKey := key.drop (historyKeyBase.length + 1)
    match subIndex ("-conv-".toList) remainingKey with
    | none => none
    | some idx => some (remainingKey.take idx, remainingKey.drop (idx + 1))
  else none

/-- The key-level projection of getAllConversations: the (model,
conversation) pairs recovered from a key enumeration.  The source
additionally requires the stored value to parse to a nonempty array,
deduplicates, and derives display metadata; none of that affects which
key decomposes into which pair. -/
def listedPairs (keys : List Str) : List (Str × Str) :=
  keys.filterMap extractKeyParts

/-! ### Storage-pressure eviction (source: cleanupOldConversations) -/

/-- JavaScript default Array.prototype.sort comparison on strings:
lexicographic by code unit (the keys here are ascii, where code units
and code points agree). -/
def strLt : Str → Str → Bool
  | [], [] => false
  | [], _ :: _ => true
  | _ :: _, [] => false
  | a :: as, b :: bs =>
    if a < b then true
    else if b < a then false
    else strLt as bs

/-- The at-most order induced by strLt. -/
def keyLe (a b : Str) : Prop := strLt b a = false

instance : DecidableRel keyLe := fun a b =>
  inferInstanceAs (Decidable (strLt b a = false))

/-- Source cleanupOldConversations key selection: every key in the
history namespace (current-pointer keys included), sorted, and the
first max(1, floor(n / 3)) of them removed. -/
def collectHistoryKeys (keys : List Str) : List Str :=
  keys.filter (fun k => strStarts historyKeyBase k)

def cleanupKeysToRemove (keys : List Str) : List Str :=
  (List.insertionSort keyLe keys).take (max 1 (keys.length / 3))

/-! ### The streaming reconciler (source: the chat component)

The onMessage handler of the chat stream, the debounce timer and
startNewConversation, embedded as a step function over an explicit
state.  Events: a fragment arriving, the armed debounce timer firing,
the terminal done message (with the transport final payload when the
backend supplies one), and startNewConversation.  Generated-image
payloads and the error event are omitted; no claim here touches them.
An Option result models a thrown exception: reading the last element of
an empty history yields undefined and the property write on it throws. -/

inductive AssistantContent
  | ofString (s : Str)
  | ofParsed (p : ParsedAssistantContent)
deriving DecidableEq, Repr

structure ChatTurn where
  userContent : Str
  assistant : AssistantContent
deriving DecidableEq, Repr

structure StreamState where
  buffer : Str
  pendingFlush : Bool
  history : List ChatTurn
  isLoading : Bool
  errorMsg : Option Str
deriving DecidableEq, Repr

/-- The setChatHistory(prev => ...) updaters all rewrite the last entry
of the array in place; on an empty array the indexing yields undefined
and the write throws, modelled by none. -/
def setLast (h : List ChatTurn) (f : ChatTurn → ChatTurn) : Option (List ChatTurn) :=
  match h.getLast? with
  | none => none
  | some t => some (h.dropLast ++ [f t])

inductive StreamEvent
  | chunk (s : Str)
  | timerFire
  | done (finalMsg : Option Str)
  | startNew
deriving DecidableEq, Repr

def streamStep (st : StreamState) : StreamEvent → Option StreamState
  | .chunk s =>
    -- chunk branch: extend the buffer, clear and re-arm the debounce timer
    some { st with buffer := st.buffer ++ s, pendingFlush := true }
  | .timerFire =>
    -- the debounce callback: write the raw accumulated buffer onto the
    -- last turn; fires only while armed, and firing disarms it
    if st.pendingFlush then
      (setLast st.history (fun t => { t with assistant := .ofString st.buffer })).map
        (fun h => { st with history := h, pendingFlush := false })
    else some st
  | .done fin =>
    -- done branch: clear the pending debounce, then take the transport
    -- final payload when supplied, else fall back to the content the
    -- last turn currently shows; classify when the trim is nonempty
    match st.history.getLast? with
    | none => none
    | some lastT =>
      let finalContent :=
        match fin with
        | some c => c
        | none =>
          match lastT.assistant with
          | .ofString s => s
          | .ofParsed p => p.rawContent
      let newAssistant : Option AssistantContent :=
        if !(trimS finalContent).isEmpty then
          match parseAssistantContent finalContent with
          | some p => some (.ofParsed p)
          | none => none
        else some lastT.assistant
      match newAssistant with
      | none => none
      | some a =>
        (setLast st.history (fun t => { t with assistant := a })).map
          (fun h => { st with history := h, pendingFlush := false, isLoading := false })
  | .startNew =>
    -- startNewConversation: closes the transport channel and clears the
    -- turn list and error, but leaves the armed debounce timer and the
    -- fragment buffer untouched
    some { st with history := [], errorMsg := none }

def runEvents (st : StreamState) : List StreamEvent → Option StreamState
  | [] => some st
  | e :: es =>
    match streamStep st e with
    | none => none
    | some st2 => runEvents st2 es

/-- The state right after handleSendMessage appended the user turn with
empty assistant content and reset the fragment buffer. -/
def initialStreamState (userText : Str) : StreamState :=
  { buffer := [], pendingFlush := false,
    history := [{ userContent := userText, assistant := .ofString [] }],
    isLoading := true, errorMsg := none }

def lastAssistant (st : StreamState) : Option AssistantContent :=
  (st.history.getLast?).map (fun t => t.assistant)

/-- Events the transport can deliver while the stream is still open. -/
def isPreEvent : StreamEvent → Bool
  | .chunk _ => true
  | .timerFire => true
  | _ => false

/-! ## Non-termination of the classifier on failed special lines

On a line where some probe fires but its extraction fails (a lone
table-candidate row, a brace opener that is not valid JSON, an
unterminated tag), every branch falls through and the text accumulator
also refuses the line, so the loop repeats with an unchanged suffix:
the run exhausts any fuel. -/

theorem parseLoop_stuck_table_line :
    ∀ fuel, parseLoop fuel [("a|b|c".toList)] [] = none := by
  intro fuel
  induction fuel with
  | zero => rfl
  | succ n ih => exact ih

theorem parseLoop_stuck_json_line :
    ∀ fuel, parseLoop fuel [("\x7bnot valid".toList)] [] = none := by
  intro fuel
  induction fuel with
  | zero => rfl
  | succ n ih => exact ih

theorem parseLoop_stuck_xml_line :
    ∀ fuel, parseLoop fuel [("<div>".toList)] [] = none := by
  intro fuel
  induction fuel with
  | zero => rfl
  | succ n ih => exact ih

theorem stuck_fuel_table :
    ∀ fuel, parseAssistantContentFuel fuel ("a|b|c".toList) = none := by
  intro fuel
  simp only [parseAssistantContentFuel]
  rw [show splitOnChar '\n' ("a|b|c".toList) = [("a|b|c".toList)] from rfl,
    parseLoop_stuck_table_line fuel]

theorem stuck_fuel_json :
    ∀ fuel, parseAssistantContentFuel fuel ("\x7bnot valid".toList) = none := by
  intro fuel
  simp only [parseAssistantContentFuel]
  rw [show splitOnChar '\n' ("\x7bnot valid".toList) = [("\x7bnot valid".toList)] from rfl,
    parseLoop_stuck_json_line fuel]

theorem stuck_fuel_xml :
    ∀ fuel, parseAssistantContentFuel fuel ("<div>".toList) = none := by
  intro fuel
  simp only [parseAssistantContentFuel]
  rw [show splitOnChar '\n' ("<div>".toList) = [("<div>".toList)] from rfl,
    parseLoop_stuck_xml_line fuel]

/-- C1.  The claim states classify terminates on every input, in
particular on a lone table-candidate line, an invalid JSON opener and
an unterminated tag.  In fact on each of those inputs every probe fails
but isSpecialLine still rejects the line for text accumulation, the
loop index never advances, and the source loop runs forever: here, the
fuel-indexed embedding (where none arises only from fuel exhaustion)
returns none for every fuel. -/
theorem classifier_not_total_on_failed_special_lines :
    (∀ fuel, parseAssistantContentFuel fuel ("a|b|c".toList) = none) ∧
    (∀ fuel, parseAssistantContentFuel fuel ("\x7bnot valid".toList) = none) ∧
    (∀ fuel, parseAssistantContentFuel fuel ("<div>".toList) = none) :=
  ⟨stuck_fuel_table, stuck_fuel_json, stuck_fuel_xml⟩

/-- C3.  Two consecutive valid rows do commit as one table block, but a
single candidate row with no successor does not fall back to text: the
extraction fails, the text accumulator rejects the line (it holds a
pipe), and the classifier loops forever, returning none for every fuel
in the fuel-indexed embedding. -/
theorem table_min_rows_divergence :
    (∀ fuel, parseAssistantContentFuel fuel ("a|b|c".toList) = none) ∧
    parseAssistantContent ("a|b\nc|d".toList) =
      some { blocks := [{ type := .table, content := ("a|b\nc|d".toList),
                          title := some ("Table".toList) }],
             rawContent := ("a|b\nc|d".toList) } :=
  ⟨stuck_fuel_table, rfl⟩

/-- C4.  A valid one-line JSON object classifies as exactly one json
block whose content is the original text and passes the JSON validity
model, but the invalid opener does not degrade to a text block: the
JSON probe rejects it, the text accumulator also rejects it (it starts
with a brace), and the classifier loops forever, returning none for
every fuel in the fuel-indexed embedding. -/
theorem json_gate_divergence :
    parseAssistantContent ("\x7b\"a\": 1\x7d".toList) =
      some { blocks := [{ type := .json, content := ("\x7b\"a\": 1\x7d".toList),
                          title := some ("JSON Response".toList) }],
             rawContent := ("\x7b\"a\": 1\x7d".toList) } ∧
    jsonValid ("\x7b\"a\": 1\x7d".toList) = true ∧
    (∀ fuel, parseAssistantContentFuel fuel ("\x7bnot valid".toList) = none) :=
  ⟨rfl, rfl, stuck_fuel_json⟩

/-- C6.  startNewConversation closes the stream and clears the history
but does not clear the armed debounce timer: after a fragment followed
by startNewConversation the timer is still armed, and when it fires its
callback indexes the last element of the now-empty history, which
throws (modelled by none).  The claim that cancellation clears any
pending scheduled flush is refuted by the surviving armed timer. -/
theorem stale_debounce_survives_start_new :
    (runEvents (initialStreamState ("hi".toList))
        [.chunk ("Hel".toList), .startNew]).map (fun st => (st.pendingFlush, st.history))
      = some (true, []) ∧
    runEvents (initialStreamState ("hi".toList))
        [.chunk ("Hel".toList), .startNew, .timerFire] = none :=
  ⟨rfl, rfl⟩

/-- C2 counterexample.  Fragments Hel, lo-comma-space, world arrive and
the stream ends before the debounce fires, with no transport final
payload: the done handler falls back to the content the last turn
currently shows, which is still the empty string, so the finalized
assistant content is the unclassified empty string, not the
classification of the concatenation Hello-comma-world. -/
theorem finalization_drops_tail_without_payload :
    (runEvents (initialStreamState ("hi".toList))
        [.chunk ("Hel".toList), .chunk ("lo, ".toList), .chunk ("world".toList),
         .done none]).map lastAssistant
      = some (some (.ofString [])) ∧
    parseAssistantContent ("Hello, world".toList) =
      some { blocks := [{ type := .text, content := ("Hello, world".toList) }],
             rawContent := ("Hello, world".toList) } ∧
    (AssistantContent.ofString []) ≠
      .ofParsed { blocks := [{ type := .text, content := ("Hello, world".toList) }],
                  rawContent := ("Hello, world".toList) } :=
  ⟨rfl, rfl, by decide⟩

/-- C5 counterexample.  Between the two command lines lies a
whitespace-only line; the text accumulator collects it, trims it to
nothing and pushes no block, so the classified output consists of the
two command blocks only: no block represents the whitespace-only
region, refuting the claim that every whitespace-only region between
recognized regions is represented by some block. -/
theorem whitespace_region_dropped :
    parseAssistantContent ("$ a\n \n$ b".toList) =
      some { blocks :=
               [{ type := .command, content := ("a".toList), title := some ("Command".toList) },
                { type := .command, content := ("b".toList), title := some ("Command".toList) }],
             rawContent := ("$ a\n \n$ b".toList) } :=
  rfl

/-- The two stored conversations of the eviction counterexample: the
key embeds the model string and the creation clock, and the second
component is the newest message timestamp of the stored record. -/
def evictDemoKeyNew : Str :=
  getStorageKey ("alpaca".toList) ++ ('-' :: ("conv-2000-x".toList))

def evictDemoKeyOld : Str :=
  getStorageKey ("zeta".toList) ++ ('-' :: ("conv-1000-y".toList))

def evictDemoStore : List (Str × Nat) :=
  [(evictDemoKeyNew, 2000), (evictDemoKeyOld, 1000)]

/-- C7 counterexample.  Eviction sorts full keys lexicographically, so
with two stored conversations it removes the lexicographically smallest
key, here the alpaca conversation, although it holds the strictly most
recent timestamp (2000 against 1000): the conversation with the most
recent timestamp is no longer loadable after eviction. -/
theorem eviction_removes_newest_conversation :
    cleanupKeysToRemove (evictDemoStore.map Prod.fst) = [evictDemoKeyNew] ∧
    (evictDemoKeyNew, 2000) ∈ evictDemoStore ∧
    (∀ e ∈ evictDemoStore, e.2 ≤ 2000) ∧
    evictDemoKeyNew ≠ evictDemoKeyOld :=
  ⟨rfl, by decide, by decide, by decide⟩

/-- Modelled from the spec: the shell-family names the spec sentence
enumerates (bash, sh, zsh, fish, cmd, powershell), for comparison with
the list the code actually uses. -/
def specShellFamily : List Str :=
  [("bash".toList), ("sh".toList), ("zsh".toList), ("fish".toList),
   ("cmd".toList), ("powershell".toList)]

/-- C8 counterexample.  The code also maps the language name shell to a
command block, although shell is not among the six names the claim
enumerates, refuting the exactly-when statement. -/
theorem shell_maps_to_command_beyond_spec_list :
    determineCodeBlockType ("shell".toList) = .command ∧
    specShellFamily.contains ("shell".toList) = false :=
  ⟨rfl, rfl⟩

/-- C9 counterexample.  Storing conversation conv-5 under model x-conv
produces a key whose first dash-conv-dash occurrence straddles the
model and the separator, although the model string does not contain
dash-conv-dash: enumeration recovers the pair (x, conv-conv-5) instead
of the original (x-conv, conv-5). -/
theorem conversation_key_split_not_inverse :
    extractKeyParts (getStorageKey ("x-conv".toList) ++ ('-' :: ("conv-5".toList))) =
      some (("x".toList), ("conv-conv-5".toList)) ∧
    containsSub ("-conv-".toList) ("x-conv".toList) = false ∧
    strStarts ("conv-".toList) ("conv-5".toList) = true ∧
    ((("x".toList) : Str), (("conv-conv-5".toList) : Str)) ≠
      ((("x-conv".toList) : Str), (("conv-5".toList) : Str)) :=
  ⟨rfl, rfl, rfl, by decide⟩

/-! ## Split lemmas for parseModelString -/

theorem containsChar_append_cons (c : Char) (p m : Str) :
    containsChar c (p ++ c :: m) = true := by
  induction p with
  | nil => simp [containsChar]
  | cons a p ih => simp [containsChar, ih]

theorem splitOnChar_no_sep (c : Char) (m : Str) (h : containsChar c m = false) :
    splitOnChar c m = [m] := by
  induction m with
  | nil => rfl
  | cons a r ih =>
    simp only [containsChar, Bool.or_eq_false_iff] at h
    rw [splitOnChar, if_neg (by simp [h.1]), ih h.2]

theorem splitOnChar_sep_append (c : Char) (p m : Str) (hp : containsChar c p = false) :
    splitOnChar c (p ++ c :: m) = p :: splitOnChar c m := by
  induction p with
  | nil =>
    simp only [List.nil_append]
    rw [splitOnChar, if_pos (by simp)]
  | cons a p ih =>
    simp only [containsChar, Bool.or_eq_false_iff] at hp
    simp only [List.cons_append]
    rw [splitOnChar, if_neg (by simp [hp.1]), ih hp.2]

/-- C10.  parseModelString inverts the provider-slash-model form when
there is exactly one slash, but with two or more slashes the JavaScript
split with limit two truncates: everything after the second segment is
dropped, so reconstruction does not return the original string. -/
theorem parse_model_string_lossy :
    (∀ p m : Str, containsChar '/' p = false → containsChar '/' m = false →
      parseModelString (p ++ '/' :: m) =
        { provider := p, model := m, manualModelString := some (p ++ '/' :: m) }) ∧
    parseModelString ("openrouter/meta/llama".toList) =
      { provider := ("openrouter".toList), model := ("meta".toList),
        manualModelString := some ("openrouter/meta/llama".toList) } ∧
    (("openrouter".toList) ++ '/' :: ("meta".toList)) ≠ ("openrouter/meta/llama".toList) := by
  refine ⟨?_, rfl, by decide⟩
  intro p m hp hm
  simp only [parseModelString, containsChar_append_cons, if_pos,
    splitOnChar_sep_append '/' p m hp, splitOnChar_no_sep '/' m hm]
  rfl

/-- C10 witness: the single-slash inversion at a concrete input. -/
theorem parse_model_string_lossy_witness :
    parseModelString (("p".toList) ++ '/' :: ("m".toList)) =
      { provider := ("p".toList), model := ("m".toList),
        manualModelString := some (("p".toList) ++ '/' :: ("m".toList)) } :=
  parse_model_string_lossy.1 ("p".toList) ("m".toList) rfl rfl

/-- C8 amended: the fence language maps to a command block exactly when
its lowercase form is in the seven-name list the code holds, which adds
shell to the six names the claim enumerates; the bash and python
examples and the default language text behave as claimed. -/
theorem fence_language_mapping_amended :
    (∀ lang : Str,
      determineCodeBlockType lang = .command ↔ shellLangs.contains (toLowerS lang) = true) ∧
    parseAssistantContent ("```bash\nls -la\n```".toList) =
      some { blocks := [{ type := .command, content := ("ls -la".toList),
                          language := some ("bash".toList),
                          title := some ("BASH Command".toList) }],
             rawContent := ("```bash\nls -la\n```".toList) } ∧
    parseAssistantContent ("```python\nprint(1)\n```".toList) =
      some { blocks := [{ type := .code, content := ("print(1)".toList),
                          language := some ("python".toList),
                          title := some ("Python Code".toList) }],
             rawContent := ("```python\nprint(1)\n```".toList) } ∧
    parseAssistantContent ("```\nxy\n```".toList) =
      some { blocks := [{ type := .code, content := ("xy".toList),
                          language := some ("text".toList),
                          title := some ("Text Code".toList) }],
             rawContent := ("```\nxy\n```".toList) } := by
  refine ⟨?_, rfl, rfl, rfl⟩
  intro lang
  by_cases h : shellLangs.contains (toLowerS lang) = true
  · simp [determineCodeBlockType, h]
  · simp [determineCodeBlockType, h]

/-! ## Prefix, suffix and first-occurrence lemmas for the key scheme -/

theorem strStarts_append_self (p r : Str) : strStarts p (p ++ r) = true := by
  induction p with
  | nil => rfl
  | cons a p ih => simp [strStarts, ih]

theorem strStarts_extend (p s t : Str) (h : strStarts p s = true) :
    strStarts p (s ++ t) = true := by
  induction p generalizing s with
  | nil => rfl
  | cons a ps ih =>
    cases s with
    | nil => exact absurd h (by simp [strStarts])
    | cons b ss =>
      simp only [strStarts, Bool.and_eq_true] at h
      simp only [List.cons_append, strStarts, Bool.and_eq_true]
      exact ⟨h.1, ih ss h.2⟩

theorem strEnds_cons (p : Str) (c : Char) (m : Str) (h : strEnds p m = true) :
    strEnds p (c :: m) = true := by
  unfold strEnds at h ⊢
  rw [List.reverse_cons]
  exact strStarts_extend _ _ _ h

theorem strEnds_cons_false (p : Str) (c : Char) (m : Str)
    (h : strEnds p (c :: m) = false) : strEnds p m = false := by
  cases hEm : strEnds p m with
  | false => rfl
  | true => rw [strEnds_cons _ _ _ hEm] at h; cases h

theorem subIndex_cons_eq (pat : Str) (c : Char) (r : Str) :
    subIndex pat (c :: r) =
      if strStarts pat (c :: r) then some 0 else (subIndex pat r).map (· + 1) :=
  rfl

theorem containsSub_cons (pat : Str) (c : Char) (m : Str) :
    containsSub pat (c :: m) = (strStarts pat (c :: m) || containsSub pat m) := by
  cases h : strStarts pat (c :: m) <;>
    simp [containsSub, subIndex_cons_eq, h, Option.isSome_map]

theorem containsSub_drop (pat : Str) (n : Nat) (s : Str)
    (h : containsSub pat s = false) : containsSub pat (s.drop n) = false := by
  induction n generalizing s with
  | zero => simpa using h
  | succ k ih =>
    cases s with
    | nil => simpa using h
    | cons c r =>
      rw [containsSub_cons, Bool.or_eq_false_iff] at h
      simpa using ih r h.2

/-- When a candidate line begins a nonempty model string that neither
contains dash-conv-dash nor ends in dash-conv, the pattern is not a
prefix of model plus pattern plus tail. -/
theorem head_not_conv_pat (model tail : Str) (hne : model ≠ [])
    (hm : containsSub ("-conv-".toList) model = false)
    (hs : strEnds ("-conv".toList) model = false) :
    strStarts ("-conv-".toList) (model ++ ("-conv-".toList) ++ tail) = false := by
  rcases model with _ | ⟨a, _ | ⟨b, _ | ⟨c, _ | ⟨d, _ | ⟨e, _ | ⟨f, rest⟩⟩⟩⟩⟩⟩
  · exact absurd rfl hne
  · simp [strStarts]
  · simp [strStarts]
  · simp [strStarts]
  · simp [strStarts]
  · cases hq : strStarts ("-conv-".toList) ([a, b, c, d, e] ++ ("-conv-".toList) ++ tail) with
    | false => rfl
    | true =>
      simp only [List.cons_append, List.nil_append, strStarts, Bool.and_eq_true,
        beq_iff_eq] at hq
      obtain ⟨h1, h2, h3, h4, h5, -⟩ := hq
      subst h1; subst h2; subst h3; subst h4; subst h5
      exact absurd hs (by decide)
  · cases hq : strStarts ("-conv-".toList)
        ((a :: b :: c :: d :: e :: f :: rest) ++ ("-conv-".toList) ++ tail) with
    | false => rfl
    | true =>
      simp only [List.cons_append, strStarts, Bool.and_eq_true, beq_iff_eq] at hq
      obtain ⟨h1, h2, h3, h4, h5, h6, -⟩ := hq
      subst h1; subst h2; subst h3; subst h4; subst h5; subst h6
      rw [containsSub_cons] at hm
      rw [Bool.or_eq_false_iff] at hm
      have : strStarts ("-conv-".toList)
          ('-' :: 'c' :: 'o' :: 'n' :: 'v' :: '-' :: rest) = true := by
        simp [strStarts]
      rw [this] at hm
      cases hm.1

/-- The first occurrence of dash-conv-dash in model plus pattern plus
tail sits exactly at the end of the model, provided the model neither
contains the pattern nor ends in dash-conv. -/
theorem subIndex_conv_at (model tail : Str)
    (hm : containsSub ("-conv-".toList) model = false)
    (hs : strEnds ("-conv".toList) model = false) :
    subIndex ("-conv-".toList) (model ++ ("-conv-".toList) ++ tail) = some model.length := by
  induction model with
  | nil =>
    simp only [List.nil_append]
    have hpos : strStarts ("-conv-".toList) ('-' :: (("conv-".toList) ++ tail)) = true :=
      strStarts_append_self ("-conv-".toList) tail
    rw [show (("-conv-".toList) ++ tail) = '-' :: (("conv-".toList) ++ tail) from rfl,
      subIndex_cons_eq, hpos, if_pos rfl]
    rfl
  | cons a m ih =>
    rw [containsSub_cons, Bool.or_eq_false_iff] at hm
    have hs2 := strEnds_cons_false _ _ _ hs
    have hhead : strStarts ("-conv-".toList) (a :: (m ++ ("-conv-".toList) ++ tail)) = false := by
      have h := head_not_conv_pat (a :: m) tail (by simp) (by
        rw [containsSub_cons, Bool.or_eq_false_iff]; exact ⟨hm.1, hm.2⟩) hs
      simpa using h
    rw [show ((a :: m) ++ ("-conv-".toList) ++ tail) =
        a :: (m ++ ("-conv-".toList) ++ tail) from by simp,
      subIndex_cons_eq, hhead, if_neg (by simp), ih hm.2 hs2]
    rfl

/-- C9 amended: enumeration recovers the original (model, conversation)
pair from a stored key whenever the model string neither contains
dash-conv-dash nor ends in dash-conv and the key does not end in
dash-current (such keys are treated as current pointers and skipped);
keys with no dash-conv-dash occurrence are silently omitted; and every
generated conversation id begins with conv-dash. -/
theorem conversation_key_recovery_amended :
    (∀ model tail : Str,
      containsSub ("-conv-".toList) model = false →
      strEnds ("-conv".toList) model = false →
      strEnds ("-current".toList)
        (getStorageKey model ++ ('-' :: (("conv-".toList) ++ tail))) = false →
      extractKeyParts (getStorageKey model ++ ('-' :: (("conv-".toList) ++ tail))) =
        some (model, ("conv-".toList) ++ tail)) ∧
    (∀ key : Str, containsSub ("-conv-".toList) key = false →
      extractKeyParts key = none) ∧
    (∀ t : Nat, ∀ r : Str,
      strStarts ("conv-".toList) (generateConversationId t r) = true) := by
  refine ⟨?_, ?_, ?_⟩
  · intro model tail hm hs hcur
    have hstart : strStarts historyKeyBase
        (getStorageKey model ++ ('-' :: (("conv-".toList) ++ tail))) = true := by
      rw [show getStorageKey model ++ ('-' :: (("conv-".toList) ++ tail))
          = historyKeyBase ++ (('-' :: model) ++ ('-' :: (("conv-".toList) ++ tail)))
          from by simp [getStorageKey]]
      exact strStarts_append_self _ _
    have hdrop : (getStorageKey model ++ ('-' :: (("conv-".toList) ++ tail))).drop
        (historyKeyBase.length + 1) = model ++ (("-conv-".toList) ++ tail) := by
      rw [show getStorageKey model ++ ('-' :: (("conv-".toList) ++ tail))
          = (historyKeyBase ++ ['-']) ++ (model ++ (("-conv-".toList) ++ tail))
          from by simp [getStorageKey]]
      rw [show historyKeyBase.length + 1 = (historyKeyBase ++ ['-']).length from by simp]
      exact List.drop_left _ _
    have hidx : subIndex ("-conv-".toList) (model ++ (("-conv-".toList) ++ tail))
        = some model.length := by
      rw [← List.append_assoc]
      exact subIndex_conv_at model tail hm hs
    have htake : (model ++ (("-conv-".toList) ++ tail)).take model.length = model :=
      List.take_left _ _
    have hdrop2 : (model ++ (("-conv-".toList) ++ tail)).drop (model.length + 1)
        = ("conv-".toList) ++ tail := by
      rw [show model ++ (("-conv-".toList) ++ tail)
          = (model ++ ['-']) ++ (("conv-".toList) ++ tail) from by
        rw [List.append_assoc]; rfl]
      rw [show model.length + 1 = (model ++ ['-']).length from by simp]
      exact List.drop_left _ _
    unfold extractKeyParts
    rw [hstart, hcur]
    simp only [Bool.not_false, Bool.and_self, if_true, hdrop, hidx, htake, hdrop2]
  · intro key hk
    unfold extractKeyParts
    split
    · have h2 : containsSub ("-conv-".toList) (key.drop (historyKeyBase.length + 1)) = false :=
        containsSub_drop _ _ _ hk
      cases hidx : subIndex ("-conv-".toList) (key.drop (historyKeyBase.length + 1)) with
      | none => simp only [hidx]
      | some v =>
        unfold containsSub at h2
        rw [hidx] at h2
        simp at h2
    · rfl
  · intro t r
    have h1 := strStarts_append_self ("conv-".toList) ((Nat.repr t).toList)
    have h2 := strStarts_extend _ _ ('-' :: r) h1
    simpa [generateConversationId] using h2

/-- C9 witness: the amended recovery at a concrete model and id. -/
theorem conversation_key_recovery_amended_witness :
    extractKeyParts (getStorageKey ("m".toList) ++ ('-' :: (("conv-".toList) ++ ("123-ab".toList)))) =
      some (("m".toList), ("conv-".toList) ++ ("123-ab".toList)) :=
  conversation_key_recovery_amended.1 ("m".toList) ("123-ab".toList) rfl rfl rfl

/-! ## Order facts about the key comparison used by eviction -/

theorem strLt_asymm : ∀ a b : Str, strLt a b = true → strLt b a = false := by
  intro a
  induction a with
  | nil =>
    intro b h
    cases b with
    | nil => cases h
    | cons c bs => rfl
  | cons x xs ih =>
    intro b h
    cases b with
    | nil => cases h
    | cons y ys =>
      simp only [strLt] at h ⊢
      by_cases h1 : x < y
      · rw [if_pos h1] at h
        rw [if_neg (lt_asymm h1), if_pos h1]
      · rw [if_neg h1] at h
        by_cases h2 : y < x
        · rw [if_pos h2] at h; cases h
        · rw [if_neg h2] at h
          rw [if_neg h2, if_neg h1]
          exact ih ys h

theorem strLt_false_trans : ∀ a b c : Str,
    strLt b a = false → strLt c b = false → strLt c a = false := by
  intro a
  induction a with
  | nil =>
    intro b c h1 h2
    cases c with
    | nil => rfl
    | cons z zs => rfl
  | cons x xs ih =>
    intro b c h1 h2
    cases b with
    | nil => simp [strLt] at h1
    | cons y ys =>
      cases c with
      | nil => simp [strLt] at h2
      | cons z zs =>
        simp only [strLt] at h1 h2 ⊢
        by_cases hyx : y < x
        · rw [if_pos hyx] at h1; cases h1
        · rw [if_neg hyx] at h1
          by_cases hzy : z < y
          · rw [if_pos hzy] at h2; cases h2
          · rw [if_neg hzy] at h2
            have hxy2 : x ≤ y := not_lt.mp hyx
            have hyz2 : y ≤ z := not_lt.mp hzy
            rw [if_neg (not_lt.mpr (le_trans hxy2 hyz2))]
            by_cases hxz : x < z
            · rw [if_pos hxz]
            · rw [if_neg hxz]
              have hxez : x = z := le_antisymm (le_trans hxy2 hyz2) (not_lt.mp hxz)
              have hyex : y = x := le_antisymm (by rw [hxez]; exact hyz2) hxy2
              rw [if_neg (by rw [hyex]; exact lt_irrefl x)] at h1
              rw [if_neg (by rw [hyex, hxez]; exact lt_irrefl z)] at h2
              exact ih ys zs h1 h2

theorem strLt_eq_of_both_false : ∀ a b : Str,
    strLt a b = false → strLt b a = false → a = b := by
  intro a
  induction a with
  | nil =>
    intro b h1 h2
    cases b with
    | nil => rfl
    | cons y ys => simp [strLt] at h1
  | cons x xs ih =>
    intro b h1 h2
    cases b with
    | nil => simp [strLt] at h2
    | cons y ys =>
      simp only [strLt] at h1 h2
      by_cases hxy : x < y
      · rw [if_pos hxy] at h1; cases h1
      · rw [if_neg hxy] at h1
        by_cases hyx : y < x
        · rw [if_pos hyx] at h2; cases h2
        · rw [if_neg hyx] at h1
          rw [if_neg hyx, if_neg hxy] at h2
          have hval : x = y := le_antisymm (not_lt.mp hyx) (not_lt.mp hxy)
          rw [hval, ih ys h1 h2]

instance : IsTrans Str keyLe :=
  ⟨fun a b c h1 h2 => strLt_false_trans a b c h1 h2⟩

instance : IsTotal Str keyLe :=
  ⟨fun a b => by
    cases h : strLt b a with
    | false => exact Or.inl h
    | true => exact Or.inr (strLt_asymm b a h)⟩

/-- C7 amended: the eviction routine removes the lexicographically
first max(1, floor(n over 3)) of the stored keys (current-pointer keys
included), not the oldest by timestamp; with at least two keys, a key
that is the unique lexicographic maximum always survives eviction, so a
conversation remains loadable exactly when its key order, not its
timestamp, protects it. -/
theorem eviction_spares_lex_greatest_key :
    ∀ (keys : List Str) (k : Str), 2 ≤ keys.length → keys.Nodup → k ∈ keys →
    (∀ x ∈ keys, keyLe x k) → k ∉ cleanupKeysToRemove keys := by
  intro keys k hlen hnodup _hk hmax hmem
  unfold cleanupKeysToRemove at hmem
  have hperm : (List.insertionSort keyLe keys).Perm keys := List.perm_insertionSort keyLe keys
  have hsorted : List.Sorted keyLe (List.insertionSort keyLe keys) :=
    List.sorted_insertionSort keyLe keys
  have hlen2 : (List.insertionSort keyLe keys).length = keys.length := hperm.length_eq
  have ht : max 1 (keys.length / 3) < (List.insertionSort keyLe keys).length := by
    rw [hlen2]
    have h3 : keys.length / 3 < keys.length := Nat.div_lt_self (by omega) (by omega)
    omega
  have hdropped : (List.insertionSort keyLe keys).drop (max 1 (keys.length / 3)) ≠ [] := by
    intro hnil
    have hlen3 := List.length_drop (max 1 (keys.length / 3)) (List.insertionSort keyLe keys)
    rw [hnil] at hlen3
    simp at hlen3
    omega
  obtain ⟨y, hy⟩ := List.exists_mem_of_ne_nil _ hdropped
  have hky : keyLe k y := hsorted.rel_of_mem_take_of_mem_drop hmem hy
  have hymem : y ∈ keys := hperm.mem_iff.mp (List.mem_of_mem_drop hy)
  have hyk : keyLe y k := hmax y hymem
  have hyeq : y = k := strLt_eq_of_both_false y k hky hyk
  subst hyeq
  have hnodup2 : (List.insertionSort keyLe keys).Nodup := hperm.nodup_iff.mpr hnodup
  have hdisj : (List.take (max 1 (keys.length / 3)) (List.insertionSort keyLe keys)).Disjoint
      (List.drop (max 1 (keys.length / 3)) (List.insertionSort keyLe keys)) :=
    List.disjoint_of_nodup_append (by rw [List.take_append_drop]; exact hnodup2)
  exact hdisj hmem hy

/-- C7 witness: with three keys, eviction removes one key and the
lexicographically greatest key survives. -/
theorem eviction_spares_lex_greatest_key_witness :
    ("c".toList) ∉ cleanupKeysToRemove [("a".toList), ("b".toList), ("c".toList)] :=
  eviction_spares_lex_greatest_key [("a".toList), ("b".toList), ("c".toList)] ("c".toList)
    (by decide) (by decide) (by decide) (by decide)

/-! ## Run lemmas for the streaming reconciler -/

theorem getLast?_some_of_ne_nil (h : List ChatTurn) (hne : h ≠ []) :
    ∃ t, h.getLast? = some t := by
  cases hh : h.getLast? with
  | some t => exact ⟨t, rfl⟩
  | none => exact absurd (List.getLast?_eq_none_iff.mp hh) hne

theorem setLast_some (h : List ChatTurn) (f : ChatTurn → ChatTurn) (hne : h ≠ []) :
    ∃ t, h.getLast? = some t ∧ setLast h f = some (h.dropLast ++ [f t]) := by
  obtain ⟨t, ht⟩ := getLast?_some_of_ne_nil h hne
  exact ⟨t, ht, by unfold setLast; rw [ht]⟩

theorem runEvents_append (st : StreamState) (es es2 : List StreamEvent) :
    runEvents st (es ++ es2) =
      match runEvents st es with
      | none => none
      | some st2 => runEvents st2 es2 := by
  induction es generalizing st with
  | nil => rfl
  | cons e es ih =>
    simp only [List.cons_append, runEvents]
    cases streamStep st e with
    | none => rfl
    | some st2 => exact ih st2

/-- Fragments and debounce fires never fail from a state with a
nonempty history and preserve its nonemptiness. -/
theorem runEvents_pre (es : List StreamEvent) (hpre : ∀ e ∈ es, isPreEvent e = true) :
    ∀ st : StreamState, st.history ≠ [] →
      ∃ st2, runEvents st es = some st2 ∧ st2.history ≠ [] := by
  induction es with
  | nil => intro st h; exact ⟨st, rfl, h⟩
  | cons e es ih =>
    intro st h
    have hpe : isPreEvent e = true := hpre e (by simp)
    have hrest : ∀ x ∈ es, isPreEvent x = true := fun x hx => hpre x (by simp [hx])
    cases e with
    | chunk s =>
      obtain ⟨st2, h1, h2⟩ :=
        ih hrest { st with buffer := st.buffer ++ s, pendingFlush := true } h
      exact ⟨st2, h1, h2⟩
    | timerFire =>
      by_cases hp : st.pendingFlush = true
      · obtain ⟨t, ht, hsl⟩ :=
          setLast_some st.history (fun t => { t with assistant := .ofString st.buffer }) h
        have hstep : streamStep st .timerFire =
            some { st with
                   history := st.history.dropLast ++
                     [{ t with assistant := .ofString st.buffer }],
                   pendingFlush := false } := by
          simp only [streamStep, hp, if_true, hsl]
          rfl
        obtain ⟨st2, h1, h2⟩ := ih hrest
          { st with
            history := st.history.dropLast ++ [{ t with assistant := .ofString st.buffer }],
            pendingFlush := false } (by simp)
        refine ⟨st2, ?_, h2⟩
        rw [show runEvents st (.timerFire :: es) =
            match streamStep st .timerFire with
            | none => none
            | some st3 => runEvents st3 es from rfl, hstep]
        exact h1
      · have hp2 : st.pendingFlush = false := by
          cases hpf : st.pendingFlush
          · rfl
          · exact absurd hpf hp
        have hstep : streamStep st .timerFire = some st := by
          simp only [streamStep, hp2]
          rfl
        obtain ⟨st2, h1, h2⟩ := ih hrest st h
        refine ⟨st2, ?_, h2⟩
        rw [show runEvents st (.timerFire :: es) =
            match streamStep st .timerFire with
            | none => none
            | some st3 => runEvents st3 es from rfl, hstep]
        exact h1
    | done fin => cases hpe
    | startNew => cases hpe

/-- The done step when the transport supplies a final payload with
nonempty trim that the classifier accepts. -/
theorem streamStep_done_payload (st : StreamState) (f : Str) (t : ChatTurn)
    (ht : st.history.getLast? = some t)
    (hf : (trimS f).isEmpty = false)
    (p : ParsedAssistantContent) (hp : parseAssistantContent f = some p) :
    streamStep st (.done (some f)) =
      some { st with
             history := st.history.dropLast ++ [{ t with assistant := .ofParsed p }],
             pendingFlush := false, isLoading := false } := by
  simp only [streamStep, ht, hf, hp, Bool.not_false, if_true, setLast]
  rfl

/-- The done step with no transport payload, from a state whose last
turn shows a string with nonempty trim that the classifier accepts. -/
theorem streamStep_done_fallback (st : StreamState) (t : ChatTurn) (s : Str)
    (ht : st.history.getLast? = some t) (hta : t.assistant = .ofString s)
    (hf : (trimS s).isEmpty = false)
    (p : ParsedAssistantContent) (hp : parseAssistantContent s = some p) :
    streamStep st (.done none) =
      some { st with
             history := st.history.dropLast ++ [{ t with assistant := .ofParsed p }],
             pendingFlush := false, isLoading := false } := by
  simp only [streamStep, ht, hta, hf, hp, Bool.not_false, if_true, setLast]
  rfl

theorem concatAll_cons (x : Str) (xs : List Str) :
    concatAll (x :: xs) = x ++ concatAll xs := by
  cases xs with
  | nil => simp [concatAll, joinWith]
  | cons y ys => simp [concatAll, joinWith]

/-- Fragment events accumulate the buffer in arrival order, never touch
the history, and leave the debounce armed when at least one fragment
arrived. -/
theorem runEvents_chunks (cs : List Str) : ∀ st : StreamState,
    ∃ st2, runEvents st (cs.map .chunk) = some st2 ∧
      st2.buffer = st.buffer ++ concatAll cs ∧
      st2.history = st.history ∧
      st2.pendingFlush = (st.pendingFlush || !cs.isEmpty) ∧
      st2.isLoading = st.isLoading := by
  induction cs with
  | nil =>
    intro st
    exact ⟨st, rfl, by simp [concatAll, joinWith], rfl, by simp, rfl⟩
  | cons c cs ih =>
    intro st
    obtain ⟨st2, h1, hbuf, hhist, hpend, hload⟩ :=
      ih { st with buffer := st.buffer ++ c, pendingFlush := true }
    refine ⟨st2, ?_, ?_, hhist, ?_, hload⟩
    · simp only [List.map_cons]
      rw [show runEvents st (.chunk c :: cs.map .chunk) =
          runEvents { st with buffer := st.buffer ++ c, pendingFlush := true }
            (cs.map .chunk) from rfl]
      exact h1
    · rw [hbuf, concatAll_cons, ← List.append_assoc]
    · rw [hpend]
      cases st.pendingFlush <;> simp

/-- C2 amended: on the end-of-stream signal the pending debounced flush
is cancelled, and the finalized content is the transport final payload
when one is supplied (classified whenever its trim is nonempty); with
no payload, finalization falls back to the content of the last UI
flush, so it classifies the full fragment concatenation exactly when a
flush ran after the last fragment.  Both good cases are proved here:
any fragment or flush events followed by done with the concatenation as
payload, and any fragment sequence whose last event before done is a
flush. -/
theorem finalize_payload_or_flushed_buffer :
    (∀ (u : Str) (es : List StreamEvent) (f : Str) (p : ParsedAssistantContent),
      (∀ e ∈ es, isPreEvent e = true) →
      (trimS f).isEmpty = false →
      parseAssistantContent f = some p →
      ∃ stF, runEvents (initialStreamState u) (es ++ [.done (some f)]) = some stF ∧
        lastAssistant stF = some (.ofParsed p) ∧ stF.pendingFlush = false) ∧
    (∀ (u : Str) (cs : List Str) (p : ParsedAssistantContent),
      (trimS (concatAll cs)).isEmpty = false →
      parseAssistantContent (concatAll cs) = some p →
      ∃ stF, runEvents (initialStreamState u) ((cs.map .chunk) ++ [.timerFire, .done none])
          = some stF ∧
        lastAssistant stF = some (.ofParsed p) ∧ stF.pendingFlush = false) := by
  constructor
  · intro u es f p hpre hf hp
    obtain ⟨stMid, h1, h2⟩ :=
      runEvents_pre es hpre (initialStreamState u) (by simp [initialStreamState])
    obtain ⟨t, ht⟩ := getLast?_some_of_ne_nil stMid.history h2
    have hrun : runEvents (initialStreamState u) (es ++ [.done (some f)]) =
        some { stMid with
               history := stMid.history.dropLast ++ [{ t with assistant := .ofParsed p }],
               pendingFlush := false, isLoading := false } := by
      rw [runEvents_append, h1]
      show runEvents stMid [.done (some f)] = _
      rw [show runEvents stMid [.done (some f)] =
          match streamStep stMid (.done (some f)) with
          | none => none
          | some st3 => runEvents st3 [] from rfl,
        streamStep_done_payload stMid f t ht hf p hp]
      rfl
    exact ⟨_, hrun, by simp [lastAssistant, List.getLast?_concat], rfl⟩
  · intro u cs p hne hp
    obtain ⟨stMid, h1, hbuf, hhist, hpend, hload⟩ :=
      runEvents_chunks cs (initialStreamState u)
    have hcs : cs ≠ [] := by
      intro hnil
      subst hnil
      simp [concatAll, joinWith, trimS] at hne
    have hpend2 : stMid.pendingFlush = true := by
      rw [hpend]
      cases cs with
      | nil => exact absurd rfl hcs
      | cons a as => simp [initialStreamState]
    have hbuf2 : stMid.buffer = concatAll cs := by
      rw [hbuf]
      simp [initialStreamState]
    have hhist2 : stMid.history = [{ userContent := u, assistant := .ofString [] }] := by
      rw [hhist]; rfl
    have hne2 : (trimS stMid.buffer).isEmpty = false := by rw [hbuf2]; exact hne
    have hp2 : parseAssistantContent stMid.buffer = some p := by rw [hbuf2]; exact hp
    have hsl : setLast stMid.history
        (fun t => { t with assistant := .ofString stMid.buffer }) =
        some [{ userContent := u, assistant := .ofString stMid.buffer }] := by
      rw [hhist2]
      rfl
    have hstep1 : streamStep stMid .timerFire =
        some { stMid with
               history := [{ userContent := u, assistant := .ofString stMid.buffer }],
               pendingFlush := false } := by
      simp only [streamStep, hpend2, if_true, hsl]
      rfl
    have hstep2 : streamStep
        { stMid with
          history := [{ userContent := u, assistant := .ofString stMid.buffer }],
          pendingFlush := false } (.done none) =
        some { stMid with
               history := [{ userContent := u, assistant := .ofParsed p }],
               pendingFlush := false, isLoading := false } := by
      exact streamStep_done_fallback
        { stMid with
          history := [{ userContent := u, assistant := .ofString stMid.buffer }],
          pendingFlush := false }
        { userContent := u, assistant := .ofString stMid.buffer }
        stMid.buffer rfl rfl hne2 p hp2
    have hrun : runEvents (initialStreamState u) ((cs.map .chunk) ++ [.timerFire, .done none]) =
        some { stMid with
               history := [{ userContent := u, assistant := .ofParsed p }],
               pendingFlush := false, isLoading := false } := by
      rw [runEvents_append, h1]
      show runEvents stMid [.timerFire, .done none] = _
      rw [show runEvents stMid [.timerFire, .done none] =
          match streamStep stMid .timerFire with
          | none => none
          | some st3 => runEvents st3 [.done none] from rfl,
        hstep1]
      show runEvents
          { stMid with
            history := [{ userContent := u, assistant := .ofString stMid.buffer }],
            pendingFlush := false } [.done none] = _
      rw [show runEvents
          { stMid with
            history := [{ userContent := u, assistant := .ofString stMid.buffer }],
            pendingFlush := false } [.done none] =
          match streamStep
            { stMid with
              history := [{ userContent := u, assistant := .ofString stMid.buffer }],
              pendingFlush := false } (.done none) with
          | none => none
          | some st3 => runEvents st3 [] from rfl,
        hstep2]
      rfl
    exact ⟨_, hrun, by simp [lastAssistant], rfl⟩

/-! ## Region coverage of the classifier

A run of the classifier partitions the input lines into contiguous
regions in document order; `Covers lines blocks` states that the block
list arises from such a partition where each region contributes its
block content by the transformation the spec names for its kind —
verbatim join for json, xml and table regions, the fence-stripped body
for fenced code, the prefix-stripped trimmed line for commands, the
trimmed line for math, the trimmed join for text — and the only regions
contributing no block are whitespace-only text runs and empty fenced
regions.  The constructors record only the shape of each region, not
the probes that selected it. -/

inductive Covers : List Str → List OutputBlock → Prop
  | nil : Covers [] []
  | fenceClosed (f : Str) (body : List Str) (c : Str) (rest : List Str)
      (b : OutputBlock) (bs : List OutputBlock) :
      isFenceLine f = true → isFenceLine c = true →
      (∀ l ∈ body, isFenceLine l = false) → body ≠ [] →
      b.content = joinNL body → (b.type = .code ∨ b.type = .command) →
      Covers rest bs → Covers (f :: (body ++ c :: rest)) (b :: bs)
  | fenceClosedEmpty (f c : Str) (rest : List Str) (bs : List OutputBlock) :
      isFenceLine f = true → isFenceLine c = true →
      Covers rest bs → Covers (f :: c :: rest) bs
  | fenceEof (f : Str) (body : List Str) (b : OutputBlock) :
      isFenceLine f = true → (∀ l ∈ body, isFenceLine l = false) → body ≠ [] →
      b.content = joinNL body → (b.type = .code ∨ b.type = .command) →
      Covers (f :: body) [b]
  | fenceEofEmpty (f : Str) :
      isFenceLine f = true → Covers [f] []
  | verbatimSeg (seg rest : List Str) (b : OutputBlock) (bs : List OutputBlock) :
      seg ≠ [] → b.content = joinNL seg →
      (b.type = .json ∨ b.type = .xml ∨ b.type = .table) →
      Covers rest bs → Covers (seg ++ rest) (b :: bs)
  | commandLine (l : Str) (rest : List Str) (b : OutputBlock) (bs : List OutputBlock) :
      b.content = (trimS l).drop 2 → b.type = .command →
      Covers rest bs → Covers (l :: rest) (b :: bs)
  | mathLine (l : Str) (rest : List Str) (b : OutputBlock) (bs : List OutputBlock) :
      b.content = trimS l → b.type = .math →
      Covers rest bs → Covers (l :: rest) (b :: bs)
  | textSeg (seg rest : List Str) (b : OutputBlock) (bs : List OutputBlock) :
      seg ≠ [] → b.content = trimS (joinNL seg) → b.content ≠ [] → b.type = .text →
      Covers rest bs → Covers (seg ++ rest) (b :: bs)
  | wsSeg (seg rest : List Str) (bs : List OutputBlock) :
      seg ≠ [] → trimS (joinNL seg) = [] →
      Covers rest bs → Covers (seg ++ rest) bs

theorem covers_nil (ls : List Str) (bs : List OutputBlock)
    (h : Covers ls bs) (hls : ls = []) : bs = [] := by
  cases h <;> simp_all

theorem drop_length_takeWhile {α : Type _} (p : α → Bool) (l : List α) :
    l.drop (l.takeWhile p).length = l.dropWhile p := by
  induction l with
  | nil => rfl
  | cons a l ih =>
    by_cases h : p a = true
    · simp [List.takeWhile_cons, List.dropWhile_cons, h, ih]
    · simp [List.takeWhile_cons, List.dropWhile_cons, h]

theorem take_length_takeWhile {α : Type _} (p : α → Bool) (l : List α) :
    l.take (l.takeWhile p).length = l.takeWhile p := by
  induction l with
  | nil => rfl
  | cons a l ih =>
    by_cases h : p a = true
    · simp [List.takeWhile_cons, h, ih]
    · simp [List.takeWhile_cons, h]

theorem dropWhile_head_false {α : Type _} (p : α → Bool) (l : List α) (x : α) (xs : List α)
    (h : l.dropWhile p = x :: xs) : p x = false := by
  induction l with
  | nil => cases h
  | cons a l ih =>
    by_cases hp : p a = true
    · rw [List.dropWhile_cons, if_pos hp] at h
      exact ih h
    · rw [List.dropWhile_cons, if_neg hp] at h
      injection h with h1 h2
      subst h1
      cases hpa : p a with
      | false => rfl
      | true => exact absurd hpa hp

theorem extractJSONGo_spec : ∀ (ls : List Str) (b k : Int) (s e : Bool)
    (acc : List Str) (c : Str) (n : Nat),
    extractJSONGo b k s e acc ls = some (c, n) →
    ∃ m, 0 < m ∧ m ≤ ls.length ∧ n = acc.length + m ∧ c = joinNL (acc ++ ls.take m) := by
  intro ls
  induction ls with
  | nil => intro b k s e acc c n h; cases h
  | cons l rest ih =>
    intro b k s e acc c n h
    simp only [extractJSONGo] at h
    split at h
    · rw [Option.some.injEq, Prod.mk.injEq] at h
      obtain ⟨hc, hn⟩ := h
      refine ⟨1, one_pos, by simp, ?_, ?_⟩
      · rw [← hn]; simp
      · rw [← hc]; rfl
    · obtain ⟨m2, hm0, hmle, hn, hc⟩ := ih _ _ _ _ _ _ _ h
      refine ⟨m2 + 1, by omega, by simp; omega, ?_, ?_⟩
      · rw [hn]; simp; omega
      · rw [hc, List.take_succ_cons]
        simp

theorem extractXMLGo_spec : ∀ (ls : List Str) (stack : List Str)
    (acc : List Str) (c : Str) (n : Nat),
    extractXMLGo stack acc ls = some (c, n) →
    ∃ m, 0 < m ∧ m ≤ ls.length ∧ n = acc.length + m ∧ c = joinNL (acc ++ ls.take m) := by
  intro ls
  induction ls with
  | nil => intro stack acc c n h; cases h
  | cons l rest ih =>
    intro stack acc c n h
    simp only [extractXMLGo] at h
    split at h
    · rw [Option.some.injEq, Prod.mk.injEq] at h
      obtain ⟨hc, hn⟩ := h
      refine ⟨1, one_pos, by simp, ?_, ?_⟩
      · rw [← hn]; simp
      · rw [← hc]; rfl
    · obtain ⟨m2, hm0, hmle, hn, hc⟩ := ih _ _ _ _ h
      refine ⟨m2 + 1, by omega, by simp; omega, ?_, ?_⟩
      · rw [hn]; simp; omega
      · rw [hc, List.take_succ_cons]
        simp

theorem extractJSON_spec (ls : List Str) (c : Str) (n : Nat)
    (h : extractJSON ls = some (c, n)) :
    0 < n ∧ n ≤ ls.length ∧ c = joinNL (ls.take n) := by
  obtain ⟨m, hm0, hmle, hn, hc⟩ := extractJSONGo_spec ls 0 0 false false [] c n h
  simp only [List.length_nil, Nat.zero_add] at hn
  subst hn
  exact ⟨hm0, hmle, by simpa using hc⟩

theorem extractXML_spec (ls : List Str) (c : Str) (n : Nat)
    (h : extractXML ls = some (c, n)) :
    0 < n ∧ n ≤ ls.length ∧ c = joinNL (ls.take n) := by
  obtain ⟨m, hm0, hmle, hn, hc⟩ := extractXMLGo_spec ls [] [] c n h
  simp only [List.length_nil, Nat.zero_add] at hn
  subst hn
  exact ⟨hm0, hmle, by simpa using hc⟩

theorem extractTable_spec (ls : List Str) (c : Str) (n : Nat)
    (h : extractTable ls = some (c, n)) :
    0 < n ∧ n ≤ ls.length ∧ c = joinNL (ls.take n) := by
  have h2 : (if 2 ≤ (ls.takeWhile (fun l => containsChar '|' (trimS l) && isTableRow (trimS l))).length
      then some (joinNL (ls.takeWhile (fun l => containsChar '|' (trimS l) && isTableRow (trimS l))),
                 (ls.takeWhile (fun l => containsChar '|' (trimS l) && isTableRow (trimS l))).length)
      else none) = some (c, n) := h
  clear h
  split at h2
  · rw [Option.some.injEq, Prod.mk.injEq] at h2
    obtain ⟨hc, hn⟩ := h2
    subst hn
    refine ⟨by omega, (List.takeWhile_prefix _).length_le, ?_⟩
    rw [take_length_takeWhile, hc]
  · cases h2

theorem determineCodeBlockType_cases (lang : Str) :
    determineCodeBlockType lang = .code ∨ determineCodeBlockType lang = .command := by
  unfold determineCodeBlockType
  split
  · exact Or.inr rfl
  · exact Or.inl rfl

theorem take_ne_nil_of_pos {α : Type _} (nn : Nat) (l : List α)
    (h0 : 0 < nn) (hne : l ≠ []) : l.take nn ≠ [] := by
  intro hnil
  rcases List.take_eq_nil_iff.mp hnil with h | h
  · omega
  · exact hne h

/-- Every terminating run of the classifier loop covers its input: the
produced blocks arise from a contiguous partition of the lines with the
per-kind content transformations of `Covers`. -/
theorem parseLoop_covers : ∀ (fuel : Nat) (ls : List Str) (acc res : List OutputBlock),
    parseLoop fuel ls acc = some res → ∃ bs, res = acc ++ bs ∧ Covers ls bs := by
  intro fuel
  induction fuel with
  | zero => intro ls acc res h; cases h
  | succ n ih =>
    intro ls acc res h
    cases ls with
    | nil =>
      have h2 : (some acc : Option (List OutputBlock)) = some res := h
      exact ⟨[], (Option.some.inj h2).symm ▸ by simp, Covers.nil⟩
    | cons l0 rest =>
      simp only [parseLoop, List.headD_cons] at h
      split at h
      · -- fenced code region
        rename_i hfence
        set L := if (trimS ((trimS l0).drop 3)).isEmpty = true then ("text".toList)
          else trimS ((trimS l0).drop 3) with hL
        set body := rest.takeWhile (fun l => !isFenceLine l) with hbody
        have hdropeq : (l0 :: rest).drop (body.length + 2) = rest.drop (body.length + 1) := rfl
        rw [hdropeq] at h
        have hwfold : rest.drop body.length = rest.dropWhile (fun l => !isFenceLine l) := by
          rw [hbody]; exact drop_length_takeWhile _ _
        have hsplit : rest.takeWhile (fun l => !isFenceLine l) ++
            rest.dropWhile (fun l => !isFenceLine l) = rest :=
          List.takeWhile_append_dropWhile _ _
        have hmem : ∀ x ∈ body, isFenceLine x = false := by
          intro x hx
          rw [hbody] at hx
          have := List.mem_takeWhile_imp hx
          simpa using this
        cases hw2 : rest.dropWhile (fun l => !isFenceLine l) with
        | nil =>
          have hrest : rest = body := by
            rw [hbody]
            rw [hw2] at hsplit
            simpa using hsplit.symm
          have hdrop2 : rest.drop (body.length + 1) = [] :=
            List.drop_eq_nil_of_le (by rw [hrest]; omega)
          rw [hdrop2] at h
          by_cases hbe : body.isEmpty = true
          · rw [if_pos hbe] at h
            obtain ⟨bs, hres, hcov⟩ := ih [] acc res h
            have hbs : bs = [] := covers_nil _ _ hcov rfl
            subst hbs
            have hbody2 : body = [] := List.isEmpty_iff.mp hbe
            refine ⟨[], by simpa using hres, ?_⟩
            rw [hrest, hbody2]
            exact Covers.fenceEofEmpty l0 hfence
          · rw [if_neg hbe] at h
            obtain ⟨bs, hres, hcov⟩ := ih [] _ res h
            have hbs : bs = [] := covers_nil _ _ hcov rfl
            subst hbs
            have hbody2 : body ≠ [] := fun hh => hbe (by rw [hh]; rfl)
            refine ⟨[{ type := determineCodeBlockType L, content := joinNL body,
                       language := some L,
                       title := some (getCodeBlockTitle L (determineCodeBlockType L)) }],
              by simpa using hres, ?_⟩
            rw [hrest]
            exact Covers.fenceEof l0 body _ hfence hmem hbody2 rfl
              (determineCodeBlockType_cases L)
        | cons cl rest3 =>
          have hrest : rest = body ++ cl :: rest3 := by
            rw [hbody, ← hw2]
            exact hsplit.symm
          have hfc : isFenceLine cl = true := by
            have := dropWhile_head_false (fun l => !isFenceLine l) rest cl rest3 hw2
            simpa using this
          have hdrop2 : rest.drop (body.length + 1) = rest3 := by
            have e1 : (rest.drop body.length).drop 1 = rest.drop (body.length + 1) :=
              List.drop_drop 1 body.length rest
            rw [← e1, hwfold, hw2]
            rfl
          rw [hdrop2] at h
          by_cases hbe : body.isEmpty = true
          · rw [if_pos hbe] at h
            obtain ⟨bs, hres, hcov⟩ := ih rest3 acc res h
            have hbody2 : body = [] := List.isEmpty_iff.mp hbe
            refine ⟨bs, hres, ?_⟩
            rw [hrest, hbody2]
            exact Covers.fenceClosedEmpty l0 cl rest3 bs hfence hfc hcov
          · rw [if_neg hbe] at h
            obtain ⟨bs, hres, hcov⟩ := ih rest3 _ res h
            have hbody2 : body ≠ [] := fun hh => hbe (by rw [hh]; rfl)
            refine ⟨{ type := determineCodeBlockType L, content := joinNL body,
                      language := some L,
                      title := some (getCodeBlockTitle L (determineCodeBlockType L)) } :: bs,
              by rw [hres]; simp, ?_⟩
            rw [hrest]
            exact Covers.fenceClosed l0 body cl rest3 _ bs hfence hfc hmem hbody2 rfl
              (determineCodeBlockType_cases L) hcov
      · -- not a fence
        rename_i hfence
        split at h
        · -- JSON region extracted
          rename_i content nn heq
          split at heq
          · obtain ⟨hn0, hnle, hc⟩ := extractJSON_spec _ _ _ heq
            obtain ⟨bs, hres, hcov⟩ := ih _ _ res h
            refine ⟨{ type := .json, content := content, language := none,
                      title := some ("JSON Response".toList) } :: bs,
              by rw [hres]; simp, ?_⟩
            rw [show (l0 :: rest) = (l0 :: rest).take nn ++ (l0 :: rest).drop nn from
              (List.take_append_drop nn _).symm]
            exact Covers.verbatimSeg _ _ _ bs
              (take_ne_nil_of_pos nn _ hn0 (by simp)) hc (Or.inl rfl) hcov
          · cases heq
        · -- JSON probe did not extract
          split at h
          · -- XML region extracted
            rename_i content nn heq
            split at heq
            · obtain ⟨hn0, hnle, hc⟩ := extractXML_spec _ _ _ heq
              obtain ⟨bs, hres, hcov⟩ := ih _ _ res h
              refine ⟨{ type := .xml, content := content, language := none,
                        title := some ("XML Response".toList) } :: bs,
                by rw [hres]; simp, ?_⟩
              rw [show (l0 :: rest) = (l0 :: rest).take nn ++ (l0 :: rest).drop nn from
                (List.take_append_drop nn _).symm]
              exact Covers.verbatimSeg _ _ _ bs
                (take_ne_nil_of_pos nn _ hn0 (by simp)) hc (Or.inr (Or.inl rfl)) hcov
            · cases heq
          · -- XML probe did not extract
            split at h
            · -- command line
              have hdropeq : (l0 :: rest).drop 1 = rest := rfl
              rw [hdropeq] at h
              obtain ⟨bs, hres, hcov⟩ := ih rest _ res h
              refine ⟨{ type := .command, content := (trimS l0).drop 2, language := none,
                        title := some ("Command".toList) } :: bs,
                by rw [hres]; simp, ?_⟩
              exact Covers.commandLine l0 rest _ bs rfl rfl hcov
            · split at h
              · -- math line
                have hdropeq : (l0 :: rest).drop 1 = rest := rfl
                rw [hdropeq] at h
                obtain ⟨bs, hres, hcov⟩ := ih rest _ res h
                refine ⟨{ type := .math, content := trimS l0, language := none,
                          title := some ("Mathematical Expression".toList) } :: bs,
                  by rw [hres]; simp, ?_⟩
                exact Covers.mathLine l0 rest _ bs rfl rfl hcov
              · split at h
                · -- table region extracted
                  rename_i content nn heq
                  split at heq
                  · obtain ⟨hn0, hnle, hc⟩ := extractTable_spec _ _ _ heq
                    obtain ⟨bs, hres, hcov⟩ := ih _ _ res h
                    refine ⟨{ type := .table, content := content, language := none,
                              title := some ("Table".toList) } :: bs,
                      by rw [hres]; simp, ?_⟩
                    rw [show (l0 :: rest) = (l0 :: rest).take nn ++ (l0 :: rest).drop nn from
                      (List.take_append_drop nn _).symm]
                    exact Covers.verbatimSeg _ _ _ bs
                      (take_ne_nil_of_pos nn _ hn0 (by simp)) hc (Or.inr (Or.inr rfl)) hcov
                  · cases heq
                · -- text accumulation
                  split at h
                  · -- the accumulator refused the line: the suffix is
                    -- unchanged and only fuel decreases
                    exact ih _ _ res h
                  · rename_i hte
                    set tl := (l0 :: rest).takeWhile (fun l => !isSpecialLine l) with htl
                    have htlne : tl ≠ [] := fun hh => hte (by rw [hh]; rfl)
                    have hwfold : (l0 :: rest).drop tl.length =
                        (l0 :: rest).dropWhile (fun l => !isSpecialLine l) := by
                      rw [htl]; exact drop_length_takeWhile _ _
                    have hsplit : (l0 :: rest).takeWhile (fun l => !isSpecialLine l) ++
                        (l0 :: rest).dropWhile (fun l => !isSpecialLine l) = (l0 :: rest) :=
                      List.takeWhile_append_dropWhile _ _
                    rw [hwfold] at h
                    split at h
                    · -- whitespace-only run: no block pushed
                      rename_i hws
                      obtain ⟨bs, hres, hcov⟩ := ih _ acc res h
                      refine ⟨bs, hres, ?_⟩
                      rw [show (l0 :: rest) = tl ++
                          (l0 :: rest).dropWhile (fun l => !isSpecialLine l) from by
                        rw [htl, hsplit]]
                      exact Covers.wsSeg tl _ bs htlne (List.isEmpty_iff.mp hws) hcov
                    · -- nonempty text block
                      rename_i hws
                      obtain ⟨bs, hres, hcov⟩ := ih _ _ res h
                      refine ⟨{ type := .text, content := trimS (joinNL tl),
                                language := none, title := none } :: bs,
                        by rw [hres]; simp, ?_⟩
                      rw [show (l0 :: rest) = tl ++
                          (l0 :: rest).dropWhile (fun l => !isSpecialLine l) from by
                        rw [htl, hsplit]]
                      exact Covers.textSeg tl _ _ bs htlne rfl
                        (fun hh => hws (by rw [show trimS (joinNL tl) = [] from hh]; rfl))
                        rfl hcov

/-- C5 amended: on every input where the classifier terminates, the
blocks partition the input lines into contiguous regions in document
order, each block carrying exactly its region contents under the
per-kind transformation (verbatim join for json, xml and table regions,
the fence-stripped body for fenced code, the two-character
prefix-stripped trimmed line for commands, the trimmed line for math,
the trimmed join for text); the only regions represented by no block
are whitespace-only text runs, whose characters are dropped, and empty
fenced regions.  When no block at all is produced, the result falls
back to a single text block holding the trimmed input. -/
theorem classifier_region_coverage :
    ∀ (fuel : Nat) (content : Str) (result : ParsedAssistantContent),
      parseAssistantContentFuel fuel content = some result →
      result.rawContent = content ∧
      (Covers (splitOnChar '\n' content) result.blocks ∨
        (result.blocks = [{ type := .text, content := trimS content }] ∧
         Covers (splitOnChar '\n' content) [])) := by
  intro fuel content result h
  have h2 : (match parseLoop fuel (splitOnChar '\n' content) [] with
      | none => none
      | some blocks =>
        some ({ blocks := if blocks.isEmpty
                  then [{ type := .text, content := trimS content }] else blocks,
                rawContent := content } : ParsedAssistantContent)) = some result := h
  clear h
  cases hp : parseLoop fuel (splitOnChar '\n' content) [] with
  | none => rw [hp] at h2; cases h2
  | some blocks =>
    rw [hp] at h2
    rw [Option.some.injEq] at h2
    obtain ⟨bs, hres, hcov⟩ := parseLoop_covers fuel _ [] blocks hp
    simp only [List.nil_append] at hres
    subst hres
    by_cases hbe : blocks.isEmpty = true
    · have hbnil : blocks = [] := List.isEmpty_iff.mp hbe
      subst hbnil
      have h3 : ParsedAssistantContent.mk
          [OutputBlock.mk OutputType.text (trimS content) none none] content = result := by
        rw [← h2]
        rfl
      refine ⟨?_, Or.inr ⟨?_, hcov⟩⟩
      · rw [← h3]
      · rw [← h3]
    · have h3 : ParsedAssistantContent.mk blocks content = result := by
        rw [← h2]
        congr 1
        rw [if_neg hbe]
      refine ⟨?_, Or.inl ?_⟩
      · rw [← h3]
      · rw [← h3]
        exact hcov

/-- C5 witness: the coverage theorem applied to a one-command input. -/
theorem classifier_region_coverage_witness :
    ({ blocks := [{ type := .command, content := ("a".toList),
                    title := some ("Command".toList) }],
       rawContent := ("$ a".toList) } : ParsedAssistantContent).rawContent = ("$ a".toList) ∧
    (Covers (splitOnChar '\n' ("$ a".toList))
        ({ blocks := [{ type := .command, content := ("a".toList),
                        title := some ("Command".toList) }],
           rawContent := ("$ a".toList) } : ParsedAssistantContent).blocks ∨
      (({ blocks := [{ type := .command, content := ("a".toList),
                       title := some ("Command".toList) }],
          rawContent := ("$ a".toList) } : ParsedAssistantContent).blocks =
          [{ type := .text, content := trimS ("$ a".toList) }] ∧
       Covers (splitOnChar '\n' ("$ a".toList)) [])) :=
  classifier_region_coverage 2 ("$ a".toList) _ rfl

/-- C2 witness: one fragment, then done carrying the full payload. -/
theorem finalize_payload_or_flushed_buffer_witness :
    ∃ stF, runEvents (initialStreamState ("hi".toList))
        ([.chunk ("Hel".toList)] ++ [.done (some ("Hello, world".toList))]) = some stF ∧
      lastAssistant stF =
        some (.ofParsed { blocks := [{ type := .text, content := ("Hello, world".toList) }],
                          rawContent := ("Hello, world".toList) }) ∧
      stF.pendingFlush = false :=
  finalize_payload_or_flushed_buffer.1 ("hi".toList) [.chunk ("Hel".toList)]
    ("Hello, world".toList) _ (by decide) rfl rfl

end OllamaUI
